import Mathlib

/-!
Verification development for the `census_data_aggregator` library
(`src/census_data_aggregator/__init__.py`).

Modelling conventions, used throughout:

* Python floats are idealised as exact rational (`ℚ`) or real (`ℝ`) arithmetic.
* A Python function that ends by applying `math.sqrt` to a rational radicand is
  embedded as a computable function returning that radicand (together with the
  rational coefficient multiplying the square root, where one exists); theorems
  about the returned margin of error speak about `coefficient * Real.sqrt radicand`.
* A raised exception is embedded as an explicit error value (`Except`, or a
  dedicated `crash` / `dataError` constructor).
* `numpy` random draws are idealised as explicit inputs: a simulation replicate
  takes the already-rounded integer count drawn for each bin as a parameter, so
  theorems quantify over every possible sequence of draws.
* A Python `None` bound and a `math.nan` bound are both embedded as `none`
  (an "open" bin bound); a missing `moe` dictionary key is `moe = none`.
-/

/-! ## Data model and embedded operations -/

/-- Python's builtin `max` over a list of rationals; the source only applies it
to nonempty lists (Python raises on an empty one, embedded here as junk 0). -/
def pymax : List ℚ → ℚ
  | [] => 0
  | [x] => x
  | x :: xs => max x (pymax xs)

/-- Embeds `approximate_sum` (lines 10-61). `zeros` are the pairs whose estimate
is exactly 0; when there are two or more of them only the largest of their
margins survives, next to every nonzero pair's margin. The source finally
returns `math.sqrt` of the sum of the squared margins; this embedding returns
the radicand (second component), the source's margin of error being
`Real.sqrt` of it. -/
def approximate_sum (pairs : List (ℚ × ℚ)) : ℚ × ℚ :=
  let zeros := pairs.filter (fun p => decide (p.1 = 0))
  let margins :=
    if 1 < zeros.length then
      pymax (zeros.map Prod.snd) ::
        ((pairs.filter (fun p => decide (p.1 ≠ 0))).map Prod.snd)
    else
      pairs.map Prod.snd
  ((pairs.map Prod.fst).sum, (margins.map (fun m => m ^ 2)).sum)

/-- Error kind raised by `approximate_proportion` (exceptions.py `DataError`). -/
inductive AggErr where
  | dataError
deriving DecidableEq

/-- Embeds `approximate_proportion` (lines 343-392). Returns the estimate and
the margin-of-error radicand `num.moe² − est²·den.moe²`; the source's margin of
error is `(1/den.value) * Real.sqrt radicand`, and the source raises `DataError`
exactly when the radicand is negative. -/
def approximate_proportion (numerator_pair denominator_pair : ℚ × ℚ) :
    Except AggErr (ℚ × ℚ) :=
  let proportion_estimate := numerator_pair.1 / denominator_pair.1
  let squared_proportion_moe :=
    numerator_pair.2 ^ 2 - proportion_estimate ^ 2 * denominator_pair.2 ^ 2
  if squared_proportion_moe < 0 then .error .dataError
  else .ok (proportion_estimate, squared_proportion_moe)

/-- Embeds `approximate_ratio` (lines 395-432). Returns the estimate, the
coefficient `1/den.value` and the radicand `num.moe² + est²·den.moe²`; the
source's margin of error is `coefficient * Real.sqrt radicand`. -/
def approximate_ratio (numerator_pair denominator_pair : ℚ × ℚ) : ℚ × ℚ × ℚ :=
  let ratio_estimate := numerator_pair.1 / denominator_pair.1
  let squared_ratio_moe :=
    numerator_pair.2 ^ 2 + ratio_estimate ^ 2 * denominator_pair.2 ^ 2
  (ratio_estimate, 1 / denominator_pair.1, squared_ratio_moe)

/-- Embeds `approximate_percentchange` (lines 475-520): the estimate is
`((new − old)/old) * 100`, and the margin of error is `100 *` the second
component of `approximate_ratio new old` (in the coefficient/radicand
representation, the coefficient is scaled by 100 and the radicand is shared). -/
def approximate_percentchange (pair_old pair_new : ℚ × ℚ) : ℚ × ℚ × ℚ :=
  let percent_change_estimate := (pair_new.1 - pair_old.1) / pair_old.1 * 100
  let percent_change_as_ratio := approximate_ratio pair_new pair_old
  (percent_change_estimate,
    100 * percent_change_as_ratio.2.1, percent_change_as_ratio.2.2)

/-- numpy's arithmetic mean of a list (idealised over ℚ; numpy errors on an
empty list, embedded as the junk value 0/0 = 0). -/
def listMean (xs : List ℚ) : ℚ := xs.sum / xs.length

/-- Sorts a list of rationals ascending, as numpy.quantile does internally. -/
def sortQ (xs : List ℚ) : List ℚ := xs.insertionSort (· ≤ ·)

/-- numpy.quantile's default linear interpolation on an already sorted list:
the virtual index is `q·(m−1)`; the result interpolates between the floor and
the following entry (capped at the last index). -/
def quantileSorted (s : List ℚ) (q : ℚ) : ℚ :=
  let m := s.length
  let i : ℚ := q * ((m : ℚ) - 1)
  let lo : ℕ := (Int.floor i).toNat
  let hi : ℕ := min (lo + 1) (m - 1)
  let a := s.getD lo 0
  let b := s.getD hi 0
  a + (i - (lo : ℚ)) * (b - a)

/-- numpy.quantile (and numpy.nanquantile on a nan-free list). -/
def quantile (xs : List ℚ) (q : ℚ) : ℚ := quantileSorted (sortQ xs) q

/-- Outcome of the simulation-path aggregation in `approximate_median`
(lines 200-218): either `(None, None)` with a `JamValueMissingWarning`, or
`(None, None)` with a `JamValueResultMOEWarning`, or an estimate with its
margin of error. -/
inductive MedianSimResult where
  | jamMissingNone
  | jamResultNone
  | ok (est moe : ℚ)
deriving DecidableEq

/-- The `else` arm of the aggregation (lines 214-218): nanmean of the replicate
outcomes, and the larger of the two one-sided quantile spreads. A nan replicate
is `none`; `reduceOption` drops nans exactly as `numpy.nanmean`/`nanquantile`
do (in this arm there are none left). -/
def medianSimOk (simulation_results : List (Option ℚ)) : MedianSimResult :=
  let vals := simulation_results.reduceOption
  let estimated_median := listMean vals
  let t1 := quantile vals (95 / 100) - estimated_median
  let t2 := estimated_median - quantile vals (5 / 100)
  .ok estimated_median (max t1 t2)

/-- Embeds the aggregation of `approximate_median`'s simulation path
(lines 200-218): nan in the results wins first (`JamValueMissingWarning`),
then a result equal to either supplied jam value (`JamValueResultMOEWarning`,
checked only when jam values were supplied, as in the source's
`jam_values and jam_values[i] in simulation_results`), else mean/quantiles. -/
def medianSimAggregate (simulation_results : List (Option ℚ))
    (jam_values : Option (ℚ × ℚ)) : MedianSimResult :=
  if none ∈ simulation_results then .jamMissingNone
  else
    match jam_values with
    | some jv =>
      if some jv.1 ∈ simulation_results then .jamResultNone
      else if some jv.2 ∈ simulation_results then .jamResultNone
      else medianSimOk simulation_results
    | none => medianSimOk simulation_results

/-- Embeds the aggregation of `approximate_mean` (lines 623-626): the mean of
the replicate means, and the larger of the two one-sided quantile spreads. -/
def meanAggregate (simulation_results : List ℚ) : ℚ × ℚ :=
  let estimated_mean := listMean simulation_results
  let moe_right := quantile simulation_results (95 / 100) - estimated_mean
  let moe_left := estimated_mean - quantile simulation_results (5 / 100)
  (estimated_mean, max moe_left moe_right)

/-- One bin dictionary of a `range_list`. The caller supplies `min`, `max`,
`n` and optionally `moe`; a `none` bound embeds a nan (open) bound. The
derived keys `n_min`, `n_max`, `n_new` are attached by `approximate_median`
itself during a call and are absent (`none`) in caller input. -/
structure RBin where
  min : Option ℚ
  max : Option ℚ
  n : ℚ
  moe : Option ℚ := none
  n_min : Option ℚ := none
  n_max : Option ℚ := none
  n_new : Option ℚ := none
deriving DecidableEq

/-- Comparison by the sort key `x['min']` (lines 140 and 583). Faithful for
bins whose `min` is numeric; the source raises or misbehaves on `None`/nan
keys, which the sort-related theorems therefore avoid. -/
def rbinLE (a b : RBin) : Prop := a.min.getD 0 ≤ b.min.getD 0

instance : DecidableRel rbinLE :=
  fun a b => inferInstanceAs (Decidable (a.min.getD 0 ≤ b.min.getD 0))

instance : IsTotal RBin rbinLE :=
  ⟨fun _ _ => le_total _ _⟩

instance : IsTrans RBin rbinLE :=
  ⟨fun _ _ _ => le_trans⟩

/-- Python's stable in-place `range_list.sort(key=lambda x: x['min'])`. -/
def sortRanges (range_list : List RBin) : List RBin := range_list.insertionSort rbinLE

/-- Outcome of one simulation replicate: a numeric median, the nan sentinel
(open bin, no jam values), or an uncaught exception. -/
inductive SimRep where
  | crash
  | undef
  | val (v : ℚ)
deriving DecidableEq

/-- The cumulative count ranges a replicate attaches while walking the sorted
bins (lines 147-156): each bin gets `n_min` = the running sum of perturbed
counts before it and `n_max` = the running sum through it. -/
def simCum (cumulative_n : ℤ) : List (RBin × ℤ) → List (RBin × ℤ × ℚ × ℚ)
  | [] => []
  | (b, d) :: rest =>
      (b, d, (cumulative_n : ℚ), ((cumulative_n + d : ℤ) : ℚ)) ::
        simCum (cumulative_n + d) rest

/-- Lines 166-199 applied to the located bin: interpolate using the PERTURBED
count `d` (the division by `n_new`, line 171), then apply the per-replicate
jam-value policy in source order (`max` checked before `min`). `crash` embeds
the ZeroDivisionError on a zero perturbed count. -/
def simRepInterp (jam_values : Option (ℚ × ℚ)) (n_midpoint : ℚ)
    (b : RBin) (d : ℤ) (n_min : ℚ) : SimRep :=
  if d = 0 then .crash
  else
    if b.max.isNone then
      match jam_values with
      | none => .undef
      | some jv => .val jv.2
    else
      if b.min.isNone then
        match jam_values with
        | none => .undef
        | some jv => .val jv.1
      else
        .val (b.min.getD 0 +
          (b.max.getD 0 - b.min.getD 0) * ((n_midpoint - n_min) / (d : ℚ)))

/-- One replicate of `approximate_median`'s simulation path (lines 144-199) on
the sorted bin list paired with this replicate's rounded Gaussian draw for each
bin. Note the midpoint is `n/2` where `n` sums the ORIGINAL reported counts
(line 159 reads `range_['n']`), while the cumulative ranges searched are built
from the perturbed counts; `crash` embeds the uncaught StopIteration when the
midpoint lies in no perturbed range. -/
def simMedianReplicate (l : List (RBin × ℤ)) (jam_values : Option (ℚ × ℚ)) : SimRep :=
  match (simCum 0 l).find? (fun t =>
      decide (t.2.2.1 ≤ (l.map (fun p => p.1.n)).sum / 2
        ∧ (l.map (fun p => p.1.n)).sum / 2 ≤ t.2.2.2)) with
  | none => .crash
  | some t => simRepInterp jam_values ((l.map (fun p => p.1.n)).sum / 2) t.1 t.2.1 t.2.2.1

/-- The replicate as claim C1 words it: identical to `simMedianReplicate`
except that the midpoint located is half the sum of the PERTURBED counts. -/
def simMedianReplicateClaimed (l : List (RBin × ℤ)) (jam_values : Option (ℚ × ℚ)) : SimRep :=
  match (simCum 0 l).find? (fun t =>
      decide (t.2.2.1 ≤ (((l.map (fun p => p.2)).sum : ℤ) : ℚ) / 2
        ∧ (((l.map (fun p => p.2)).sum : ℤ) : ℚ) / 2 ≤ t.2.2.2)) with
  | none => .crash
  | some t =>
      simRepInterp jam_values ((((l.map (fun p => p.2)).sum : ℤ) : ℚ) / 2) t.1 t.2.1 t.2.2.1

/-- The perturbed cumulative ranges described declaratively: entry `i` is the
pair (sum of the draws before `i`, sum of the draws through `i`). -/
def runningRanges (ds : List ℤ) : List (ℚ × ℚ) :=
  (List.range ds.length).map
    (fun i => ((((ds.take i).sum : ℤ) : ℚ), (((ds.take (i + 1)).sum : ℤ) : ℚ)))

/-- The amended reading of claim C1: cumulative ranges recomputed per replicate
from the perturbed counts, the located bin the first whose perturbed range
contains half the sum of the ORIGINAL reported counts, interpolation by the
§4.3 step-2 formula applied to the perturbed counts. -/
def simMedianReplicateAmended (l : List (RBin × ℤ)) (jam_values : Option (ℚ × ℚ)) : SimRep :=
  match (l.zip (runningRanges (l.map Prod.snd))).find? (fun t =>
      decide (t.2.1 ≤ (l.map (fun p => p.1.n)).sum / 2
        ∧ (l.map (fun p => p.1.n)).sum / 2 ≤ t.2.2)) with
  | none => .crash
  | some t =>
      simRepInterp jam_values ((l.map (fun p => p.1.n)).sum / 2) t.1.1 t.1.2 t.2.1

/-- The two-bin list and draws on which the source's replicate and the claimed
(perturbed-midpoint) replicate disagree: original counts 4 and 4, perturbed
counts 2 and 2. -/
def exC1 : List (RBin × ℤ) :=
  [(⟨some 0, some 10, 4, some 1, none, none, none⟩, 2),
   (⟨some 10, some 20, 4, some 1, none, none, none⟩, 2)]

/-- The per-replicate perturbed bin counts of `approximate_mean`
(lines 593-620), with `draws` the rounded Gaussian draw for each (sorted) bin:
every bin except the last is clamped through `max(0, nn)` (line 601); the last
bin is clamped on the `pareto` branch (line 610) but NOT on the uniform branch
(lines 615-620, where no `max(0, nn)` appears). -/
def meanPerturbedCounts (draws : List ℤ) (pareto : Bool) : List ℤ :=
  (draws.dropLast.map (fun nn => max 0 nn)) ++
    (match draws.getLast? with
     | none => []
     | some nn => [if pareto then max 0 nn else nn])

/-- Line 142: the simulation path is taken exactly when, after the in-place
sort by `min`, the FIRST bin's dictionary contains the key `moe`
(`"moe" in list(range_list[0].keys())`); an empty list would raise IndexError
in the source (junk `false` here, theorems assume nonempty input). -/
def medianUsesSimulation (range_list : List RBin) : Bool :=
  match sortRanges range_list with
  | [] => false
  | b :: _ => b.moe.isSome

/-- Two bins where only the second-sorted bin carries `moe`. -/
def exC9analytical : List RBin :=
  [⟨some 0, some 10, 5, none, none, none, none⟩,
   ⟨some 10, some 20, 3, some 1, none, none, none⟩]

/-- Two bins, submitted out of order, where only the first-sorted bin
carries `moe`. -/
def exC9simulation : List RBin :=
  [⟨some 10, some 20, 3, none, none, none, none⟩,
   ⟨some 0, some 10, 5, some 1, none, none, none⟩]

/-- Lines 222-226: the analytical path's in-place cumulative assignment from
the ORIGINAL counts; each (sorted) bin is paired with its running-sum range. -/
def assignCum (cumulative_n : ℚ) : List RBin → List (RBin × ℚ × ℚ)
  | [] => []
  | b :: rest =>
      (b, cumulative_n, cumulative_n + b.n) :: assignCum (cumulative_n + b.n) rest

/-- The enriched dictionaries after the cumulative assignment: the source
mutates each caller dict in place, attaching the keys `n_min` and `n_max`. -/
def withCumFields (l : List RBin) : List RBin :=
  (assignCum 0 l).map (fun t => { t.1 with n_min := some t.2.1, n_max := some t.2.2 })

/-- The caller-visible state of `range_list` after `approximate_median`'s
analytical branch: sorted in place (line 140) and enriched in place
(lines 222-226). -/
def approximate_median_post (range_list : List RBin) : List RBin :=
  withCumFields (sortRanges range_list)

/-- The caller-visible state of `range_list` after `approximate_mean`: sorted
in place (line 583); the mean path attaches no fields. -/
def approximate_mean_post (range_list : List RBin) : List RBin :=
  sortRanges range_list

/-- The caller-supplied fields of a bin dictionary. -/
def coreOf (b : RBin) : Option ℚ × Option ℚ × ℚ × Option ℚ :=
  (b.min, b.max, b.n, b.moe)

/-- The caller's two-bin list, submitted out of order, on which the call's
mutation is visible. -/
def exC7 : List RBin :=
  [⟨some 10, some 20, 3, none, none, none, none⟩,
   ⟨some 0, some 10, 5, none, none, none, none⟩]

/-- Decides `aq + bq·√r ≤ c` (for `0 ≤ r`) by squaring. -/
def leSqrt (aq bq c r : ℚ) : Bool :=
  if 0 ≤ bq then decide (0 ≤ c - aq ∧ bq ^ 2 * r ≤ (c - aq) ^ 2)
  else decide (0 ≤ c - aq ∨ (c - aq) ^ 2 ≤ bq ^ 2 * r)

/-- Decides `aq + bq·√r ≥ c` (for `0 ≤ r`). -/
def geSqrt (aq bq c r : ℚ) : Bool := leSqrt (-aq) (-bq) (-c) r

/-- The real-valued containment condition of lines 291 and 299:
`point >= n_min and point <= n_max` for the point `aq + bq·√r`. -/
def PointInRange (aq bq r n_min n_max : ℚ) : Prop :=
  (n_min : ℝ) ≤ (aq : ℝ) + (bq : ℝ) * Real.sqrt ((r : ℚ) : ℝ)
    ∧ (aq : ℝ) + (bq : ℝ) * Real.sqrt ((r : ℚ) : ℝ) ≤ (n_max : ℝ)

/-- No cumulative range of the partition contains the point `aq + bq·√r`;
this is the `StopIteration` condition of lines 288-302. -/
def noRangeContains (ranges : List (RBin × ℚ × ℚ)) (aq bq r : ℚ) : Prop :=
  ¬ ∃ t ∈ ranges, PointInRange aq bq r t.2.1 t.2.2

/-- The decidable containment test for the point `aq + bq·√r`. -/
def inRangeSqrt (aq bq r n_min n_max : ℚ) : Bool :=
  geSqrt aq bq n_min r && leSqrt aq bq n_max r

/-- The `next((i, d) for i, d in enumerate(range_list) if …)` of lines 288-302,
returning the first located entry together with the following entry (the
source's `range_list[i + 1]`, absent for the last bin). -/
def locateWithNext (aq bq r : ℚ) :
    List (RBin × ℚ × ℚ) → Option ((RBin × ℚ × ℚ) × Option (RBin × ℚ × ℚ))
  | [] => none
  | x :: rest =>
      if inRangeSqrt aq bq r x.2.1 x.2.2 then some (x, rest.head?)
      else locateWithNext aq bq r rest

/-- Lines 304-315 (and symmetrically 317-328): the two-point linear
interpolation of one value-scale bound for the probability point `aP + bP·√r`
(probability scale), on the located entry and its optional successor. The
outer `none` embeds the ZeroDivisionError when the two cumulative fractions
coincide; the inner `none` embeds a nan bound (an open `min`/`max` involved);
the value is the affine pair (u, v) meaning `u + v·√r`. -/
def interpBound (aP bP n : ℚ)
    (loc : (RBin × ℚ × ℚ) × Option (RBin × ℚ × ℚ)) : Option (Option (ℚ × ℚ)) :=
  let a1o := loc.1.1.min
  let a2o := match loc.2 with
    | some nxt => nxt.1.min
    | none => loc.1.1.max
  let c1 := loc.1.2.1 / n
  let c2 := match loc.2 with
    | some nxt => nxt.2.1 / n
    | none => loc.1.2.2 / n
  if c2 - c1 = 0 then none
  else
    match a1o, a2o with
    | some a1, some a2 =>
        some (some (((aP - c1) / (c2 - c1)) * (a2 - a1) + a1,
          (bP / (c2 - c1)) * (a2 - a1)))
    | _, _ => some none

/-- Outcome of the margin stage: an uncaught arithmetic fault, the DataError
of lines 288-302, or a margin (`none` = the isnan → None case of lines
336-337; otherwise the affine pair `u + v·√r`). -/
inductive MoeStageOut where
  | crash
  | dataError
  | moe (v : Option (ℚ × ℚ))
deriving DecidableEq

/-- Lines 277-337: the analytical margin-of-error stage on the
cumulative-assigned ranges with universe total `n`. The count-scale points
are `n/2 ∓ (n·D/100)·√r` with `r = ((100−pct)/(n·pct))·2500`; a point located
in no cumulative range raises DataError. `crash` embeds ZeroDivisionError
(`n·pct = 0`, or equal cumulative fractions during interpolation) and the
ValueError of `math.sqrt` on a negative radicand. The final margin
`1.645 · 0.5 · (upper − lower)` is an affine pair in `√r`. -/
def moeStage (ranges : List (RBin × ℚ × ℚ)) (design_factor pct n : ℚ) : MoeStageOut :=
  if n * pct = 0 then .crash
  else
    if ((100 - pct) / (n * pct)) * 2500 < 0 then .crash
    else
      match locateWithNext (n / 2) (-(n * design_factor / 100))
          (((100 - pct) / (n * pct)) * 2500) ranges with
      | none => .dataError
      | some locL =>
        match locateWithNext (n / 2) (n * design_factor / 100)
            (((100 - pct) / (n * pct)) * 2500) ranges with
        | none => .dataError
        | some locU =>
          match interpBound (1 / 2) (-(design_factor / 100)) n locL,
              interpBound (1 / 2) (design_factor / 100) n locU with
          | none, _ => .crash
          | some _, none => .crash
          | some lbo, some ubo =>
            match lbo, ubo with
            | some lb, some ub =>
                .moe (some ((1645 / 1000) * ((1 / 2) * (ub.1 - lb.1)),
                  (1645 / 1000) * ((1 / 2) * (ub.2 - lb.2))))
            | _, _ => .moe none

/-- Caller-visible outcome of the analytical branch of `approximate_median`. -/
inductive MedOutcome where
  | crash
  | jamMissingNone
  | dataError
  | noMoE (est : ℚ)
  | result (est : ℚ) (moe : Option (ℚ × ℚ))
deriving DecidableEq

/-- Lines 270-337 from the estimated median on: `if not sampling_percentage`
(Python falsiness: absent OR zero both degrade to `(est, None)` with a
`SamplingPercentageWarning`), else the margin stage. -/
def finishMedian (ranges : List (RBin × ℚ × ℚ)) (design_factor : ℚ)
    (sampling_percentage : Option ℚ) (n estimated_median : ℚ) : MedOutcome :=
  match sampling_percentage with
  | none => .noMoE estimated_median
  | some pct =>
    if pct = 0 then .noMoE estimated_median
    else
      match moeStage ranges design_factor pct n with
      | .crash => .crash
      | .dataError => .dataError
      | .moe v => .result estimated_median v

/-- Embeds the analytical branch of `approximate_median` (lines 220-340):
in-place sort, cumulative assignment from the ORIGINAL counts, midpoint
location (uncaught StopIteration = `crash`), §4.3 step-2 interpolation
(ZeroDivisionError on a zero located count = `crash`), the jam-value policy of
lines 249-268 (`max` checked before `min`; with no jam values an open located
bin returns `(None, None)` with a `JamValueMissingWarning`), then
`finishMedian`. `jam_values` is a supplied pair, so the InputError of line 262
(fewer than two jam values) cannot arise in this embedding. -/
def analyticalMedian (range_list : List RBin) (design_factor : ℚ)
    (sampling_percentage : Option ℚ) (jam_values : Option (ℚ × ℚ)) : MedOutcome :=
  match (assignCum 0 (sortRanges range_list)).find? (fun t =>
      decide (t.2.1 ≤ ((sortRanges range_list).map RBin.n).sum / 2
        ∧ ((sortRanges range_list).map RBin.n).sum / 2 ≤ t.2.2)) with
  | none => .crash
  | some t =>
    if t.1.n = 0 then .crash
    else
      match jam_values with
      | none =>
        if t.1.max.isNone ∨ t.1.min.isNone then .jamMissingNone
        else
          finishMedian (assignCum 0 (sortRanges range_list)) design_factor
            sampling_percentage (((sortRanges range_list).map RBin.n).sum)
            (t.1.min.getD 0 + (t.1.max.getD 0 - t.1.min.getD 0) *
              ((((sortRanges range_list).map RBin.n).sum / 2 - t.2.1) / t.1.n))
      | some jv =>
        if t.1.max.isNone then
          finishMedian (assignCum 0 (sortRanges range_list)) design_factor
            sampling_percentage (((sortRanges range_list).map RBin.n).sum) jv.2
        else if t.1.min.isNone then
          finishMedian (assignCum 0 (sortRanges range_list)) design_factor
            sampling_percentage (((sortRanges range_list).map RBin.n).sum) jv.1
        else
          finishMedian (assignCum 0 (sortRanges range_list)) design_factor
            sampling_percentage (((sortRanges range_list).map RBin.n).sum)
            (t.1.min.getD 0 + (t.1.max.getD 0 - t.1.min.getD 0) *
              ((((sortRanges range_list).map RBin.n).sum / 2 - t.2.1) / t.1.n))

/-- The 4-bin partition with total n = 20 used by the claim's example (the
source test's `bad_data`). -/
def exC5 : List RBin :=
  [⟨some 0, some 49999, 5, none, none, none, none⟩,
   ⟨some 50000, some 99999, 5, none, none, none, none⟩,
   ⟨some 100000, some 199999, 5, none, none, none, none⟩,
   ⟨some 200000, some 250001, 5, none, none, none, none⟩]

/-! ## Supporting lemmas and claim theorems -/

theorem pymax_mem : ∀ {l : List ℚ}, l ≠ [] → pymax l ∈ l
  | [], h => absurd rfl h
  | [x], _ => by simp [pymax]
  | x :: y :: xs, _ => by
      rcases le_total x (pymax (y :: xs)) with h | h
      · have := pymax_mem (l := y :: xs) (by simp)
        simp [pymax, max_eq_right h, this]
      · simp [pymax, max_eq_left h]

theorem le_pymax : ∀ {l : List ℚ} {m : ℚ}, m ∈ l → m ≤ pymax l
  | [x], m, h => by simp at h; simp [pymax, h]
  | x :: y :: xs, m, h => by
      rcases List.mem_cons.mp h with h | h
      · subst h; exact le_max_left _ _
      · exact le_trans (le_pymax h) (le_max_right _ _)

/-- C3: `approximate_sum` returns the sum of the values, and its margin of
error is the square root of the sum of the squared margins, except that when
two or more pairs have value exactly 0 only the single largest margin among
the zero-valued pairs enters the radicand (as `m0` below), every other
zero-valued margin being discarded; on `[(0,22),(0,22),(0,29),(41,37)]` only
29 and 37 combine. -/
theorem approximate_sum_spec (pairs : List (ℚ × ℚ)) :
    (approximate_sum pairs).1 = (pairs.map Prod.fst).sum
    ∧ (1 < (pairs.filter (fun p => decide (p.1 = 0))).length →
        ∃ m0, m0 ∈ (pairs.filter (fun p => decide (p.1 = 0))).map Prod.snd
          ∧ (∀ m ∈ (pairs.filter (fun p => decide (p.1 = 0))).map Prod.snd, m ≤ m0)
          ∧ (approximate_sum pairs).2 =
              m0 ^ 2 + ((pairs.filter (fun p => decide (p.1 ≠ 0))).map
                (fun p => p.2 ^ 2)).sum)
    ∧ (¬ 1 < (pairs.filter (fun p => decide (p.1 = 0))).length →
        (approximate_sum pairs).2 = (pairs.map (fun p => p.2 ^ 2)).sum)
    ∧ approximate_sum [(0, 22), (0, 22), (0, 29), (41, 37)] = (41, 29 ^ 2 + 37 ^ 2) := by
  refine ⟨rfl, ?_, ?_, by norm_num [approximate_sum, pymax]⟩
  · intro hlen
    have hne : (pairs.filter (fun p => decide (p.1 = 0))).map Prod.snd ≠ [] := by
      intro h
      rw [List.map_eq_nil_iff.mp h] at hlen
      simp at hlen
    refine ⟨pymax _, pymax_mem hne, fun m hm => le_pymax hm, ?_⟩
    simp only [approximate_sum, if_pos hlen]
    simp [List.map_map, Function.comp_def]
  · intro hlen
    simp only [approximate_sum, if_neg hlen]
    simp [List.map_map, Function.comp_def]

/-- C4: for a nonzero denominator value, `approximate_proportion` raises
`DataError` if and only if its radicand `num.moe² − (num/den)²·den.moe²` is
negative, and otherwise returns the estimate `num/den` together with that
radicand (the source's margin of error being `(1/den)·√radicand`);
`approximate_ratio` never raises on sign — its radicand
`num.moe² + (num/den)²·den.moe²` is non-negative — and returns a result for
every such input. -/
theorem proportion_ratio_spec (num den : ℚ × ℚ) (_hden : den.1 ≠ 0) :
    ((approximate_proportion num den matches .error _) ↔
        num.2 ^ 2 - (num.1 / den.1) ^ 2 * den.2 ^ 2 < 0)
    ∧ (0 ≤ num.2 ^ 2 - (num.1 / den.1) ^ 2 * den.2 ^ 2 →
        approximate_proportion num den =
          .ok (num.1 / den.1, num.2 ^ 2 - (num.1 / den.1) ^ 2 * den.2 ^ 2))
    ∧ 0 ≤ num.2 ^ 2 + (num.1 / den.1) ^ 2 * den.2 ^ 2
    ∧ approximate_ratio num den =
        (num.1 / den.1, 1 / den.1, num.2 ^ 2 + (num.1 / den.1) ^ 2 * den.2 ^ 2) := by
  refine ⟨?_, ?_, by positivity, rfl⟩
  · by_cases h : num.2 ^ 2 - (num.1 / den.1) ^ 2 * den.2 ^ 2 < 0
    · simp [approximate_proportion, h]
    · simp [approximate_proportion, h]
  · intro h
    simp [approximate_proportion, not_lt.mpr h]

/-- Witness for C4 at the handbook's proportion example, numerator (203119, 5070)
and denominator (690746, 831): the radicand is non-negative there, so the call
returns the estimate/radicand pair rather than raising. -/
theorem proportion_ratio_spec_witness :
    approximate_proportion (203119, 5070) (690746, 831) =
      .ok ((203119 : ℚ) / 690746,
        (5070 : ℚ) ^ 2 - ((203119 : ℚ) / 690746) ^ 2 * 831 ^ 2) :=
  (proportion_ratio_spec (203119, 5070) (690746, 831) (by norm_num)).2.1 (by norm_num)

/-- C8: for a nonzero old value, `approximate_percentchange` returns the
estimate `100·(new − old)/old` and a margin of error that is exactly `100 ×`
the margin-of-error component of `approximate_ratio new old` (the same ratio
propagation rule, not an independent formula); at `((135173,3860),(139301,4047))`
its estimate is exactly `412800/135173` and its margin of error lies strictly
between `4.19806985` and `4.19806986`, the exact values whose floating-point
renderings are the pair `(3.0538643072211165, 4.198069852261231)`. -/
theorem approximate_percentchange_spec :
    (∀ pair_old pair_new : ℚ × ℚ, pair_old.1 ≠ 0 →
      (approximate_percentchange pair_old pair_new).1 =
          100 * (pair_new.1 - pair_old.1) / pair_old.1
        ∧ ((approximate_percentchange pair_old pair_new).2.1 : ℝ)
              * Real.sqrt ((approximate_percentchange pair_old pair_new).2.2 : ℚ)
            = 100 * (((approximate_ratio pair_new pair_old).2.1 : ℝ)
              * Real.sqrt ((approximate_ratio pair_new pair_old).2.2 : ℚ)))
    ∧ (approximate_percentchange (135173, 3860) (139301, 4047)).1 = 412800 / 135173
    ∧ ((3053864307221116 / 10 ^ 15 : ℚ) <
          (approximate_percentchange (135173, 3860) (139301, 4047)).1
        ∧ (approximate_percentchange (135173, 3860) (139301, 4047)).1 <
          (3053864307221117 / 10 ^ 15 : ℚ))
    ∧ ((419806985 / 10 ^ 8 : ℝ) <
          ((approximate_percentchange (135173, 3860) (139301, 4047)).2.1 : ℝ)
            * Real.sqrt ((approximate_percentchange (135173, 3860) (139301, 4047)).2.2 : ℚ)
        ∧ ((approximate_percentchange (135173, 3860) (139301, 4047)).2.1 : ℝ)
            * Real.sqrt ((approximate_percentchange (135173, 3860) (139301, 4047)).2.2 : ℚ)
          < (419806986 / 10 ^ 8 : ℝ)) := by
  have hval : (approximate_percentchange (135173, 3860) (139301, 4047)).2.1 = 100 / 135173 := by
    norm_num [approximate_percentchange, approximate_ratio]
  have hrad : (approximate_percentchange (135173, 3860) (139301, 4047)).2.2 =
      588381665598266761 / 18271739929 := by
    norm_num [approximate_percentchange, approximate_ratio]
  refine ⟨?_, ?_, ?_, ?_⟩
  · intro pair_old pair_new h
    constructor
    · show (pair_new.1 - pair_old.1) / pair_old.1 * 100 = _
      field_simp
      ring
    · have hsame : (approximate_percentchange pair_old pair_new).2.2 =
          (approximate_ratio pair_new pair_old).2.2 := rfl
      rw [hsame]
      show ((100 * (approximate_ratio pair_new pair_old).2.1 : ℚ) : ℝ) * _ = _
      push_cast
      ring
  · norm_num [approximate_percentchange]
  · norm_num [approximate_percentchange]
  · rw [hval, hrad]
    rw [show (((588381665598266761 / 18271739929 : ℚ)) : ℝ) =
        588381665598266761 / 18271739929 by push_cast; ring]
    rw [show (((100 / 135173 : ℚ)) : ℝ) = 100 / 135173 by push_cast; ring]
    constructor
    · rw [show (419806985 / 10 ^ 8 : ℝ) =
          (100 / 135173) * (419806985 * 135173 / 10 ^ 10) by ring]
      rw [mul_lt_mul_left (by norm_num : (0:ℝ) < 100 / 135173)]
      rw [Real.lt_sqrt (by positivity)]
      norm_num
    · rw [show (419806986 / 10 ^ 8 : ℝ) =
          (100 / 135173) * (419806986 * 135173 / 10 ^ 10) by ring]
      rw [mul_lt_mul_left (by norm_num : (0:ℝ) < 100 / 135173)]
      rw [Real.sqrt_lt' (by positivity)]
      norm_num

/-- Witness for C8, applying the universally quantified part at the concrete
pairs of the claim: the estimate agrees with `100·(new − old)/old` there. -/
theorem approximate_percentchange_spec_witness :
    (approximate_percentchange (135173, 3860) (139301, 4047)).1 =
      100 * ((139301 : ℚ) - 135173) / 135173 :=
  (approximate_percentchange_spec.1 (135173, 3860) (139301, 4047) (by norm_num)).1

theorem getD_mono_of_sorted {s : List ℚ} (hs : List.Sorted (· ≤ ·) s) {j k : ℕ}
    (hjk : j ≤ k) (hk : k < s.length) : s.getD j 0 ≤ s.getD k 0 := by
  have hj : j < s.length := lt_of_le_of_lt hjk hk
  rw [List.getD_eq_getElem s 0 hj, List.getD_eq_getElem s 0 hk]
  rcases eq_or_lt_of_le hjk with h | h
  · subst h
    exact le_refl _
  · have := hs.rel_get_of_lt (a := ⟨j, hj⟩) (b := ⟨k, hk⟩) (by exact h)
    simpa [List.get_eq_getElem] using this

theorem quantileSorted_mono {s : List ℚ} (hs : List.Sorted (· ≤ ·) s)
    {q q' : ℚ} (h0 : 0 ≤ q) (hqq : q ≤ q') (h1 : q' ≤ 1) :
    quantileSorted s q ≤ quantileSorted s q' := by
  rcases Nat.eq_zero_or_pos s.length with hm | hm
  · rw [List.length_eq_zero.mp hm]
    simp [quantileSorted]
  · set m := s.length with hmdef
    have hm1 : (1 : ℚ) ≤ (m : ℚ) := by exact_mod_cast hm
    have hmq : (0 : ℚ) ≤ (m : ℚ) - 1 := by linarith
    set i : ℚ := q * ((m : ℚ) - 1) with hidef
    set i' : ℚ := q' * ((m : ℚ) - 1) with hidef'
    have hi0 : 0 ≤ i := mul_nonneg h0 hmq
    have hi0' : 0 ≤ i' := mul_nonneg (le_trans h0 hqq) hmq
    have hii : i ≤ i' := mul_le_mul_of_nonneg_right hqq hmq
    have hitop : i' ≤ (m : ℚ) - 1 := by
      calc i' ≤ 1 * ((m : ℚ) - 1) := mul_le_mul_of_nonneg_right h1 hmq
        _ = (m : ℚ) - 1 := one_mul _
    set lo : ℕ := (Int.floor i).toNat with hlodef
    set lo' : ℕ := (Int.floor i').toNat with hlodef'
    have hloc : (lo : ℚ) = (Int.floor i : ℤ) := by
      rw [hlodef]
      exact_mod_cast congrArg (fun z => ((z : ℤ) : ℚ))
        (Int.toNat_of_nonneg (Int.floor_nonneg.mpr hi0))
    have hloc' : (lo' : ℚ) = (Int.floor i' : ℤ) := by
      rw [hlodef']
      exact_mod_cast congrArg (fun z => ((z : ℤ) : ℚ))
        (Int.toNat_of_nonneg (Int.floor_nonneg.mpr hi0'))
    have hlo_le : (lo : ℚ) ≤ i := by rw [hloc]; exact Int.floor_le i
    have hlo_le' : (lo' : ℚ) ≤ i' := by rw [hloc']; exact Int.floor_le i'
    have hlt : i < (lo : ℚ) + 1 := by rw [hloc]; exact_mod_cast Int.lt_floor_add_one i
    have hlt' : i' < (lo' : ℚ) + 1 := by rw [hloc']; exact_mod_cast Int.lt_floor_add_one i'
    have hlole : lo ≤ lo' := Int.toNat_le_toNat (Int.floor_le_floor hii)
    have hcastm1 : ((m - 1 : ℕ) : ℚ) = (m : ℚ) - 1 := by
      have : (1 : ℕ) ≤ m := hm
      push_cast [Nat.cast_sub this]
      ring
    have hlo'_top : lo' ≤ m - 1 := by
      have : (lo' : ℚ) ≤ ((m - 1 : ℕ) : ℚ) := by rw [hcastm1]; linarith
      exact_mod_cast this
    have hlo_top : lo ≤ m - 1 := le_trans hlole hlo'_top
    set hi : ℕ := min (lo + 1) (m - 1) with hhidef
    set hi' : ℕ := min (lo' + 1) (m - 1) with hhidef'
    have hhi_top : hi ≤ m - 1 := min_le_right _ _
    have hhi_top' : hi' ≤ m - 1 := min_le_right _ _
    have hlohi : lo ≤ hi := le_min (Nat.le_succ lo) hlo_top
    have hlohi' : lo' ≤ hi' := le_min (Nat.le_succ lo') hlo'_top
    have hm1lt : m - 1 < m := Nat.sub_lt hm one_pos
    have hab : s.getD lo 0 ≤ s.getD hi 0 :=
      getD_mono_of_sorted hs hlohi (lt_of_le_of_lt hhi_top hm1lt)
    have hab' : s.getD lo' 0 ≤ s.getD hi' 0 :=
      getD_mono_of_sorted hs hlohi' (lt_of_le_of_lt hhi_top' hm1lt)
    show s.getD lo 0 + (i - (lo : ℚ)) * (s.getD hi 0 - s.getD lo 0) ≤
      s.getD lo' 0 + (i' - (lo' : ℚ)) * (s.getD hi' 0 - s.getD lo' 0)
    rcases eq_or_lt_of_le hlole with heq | hltlo
    · have hhi_eq : hi = hi' := by rw [hhidef, hhidef', heq]
      rw [← hhi_eq, ← heq]
      have hfree : (i - (lo : ℚ)) * (s.getD hi 0 - s.getD lo 0) ≤
          (i' - (lo : ℚ)) * (s.getD hi 0 - s.getD lo 0) :=
        mul_le_mul_of_nonneg_right (by linarith) (by linarith)
      linarith
    · have h1' : s.getD lo 0 + (i - (lo : ℚ)) * (s.getD hi 0 - s.getD lo 0) ≤ s.getD hi 0 := by
        have hstep : (i - (lo : ℚ)) * (s.getD hi 0 - s.getD lo 0) ≤
            1 * (s.getD hi 0 - s.getD lo 0) :=
          mul_le_mul_of_nonneg_right (by linarith) (by linarith)
        linarith
      have h2' : s.getD lo' 0 ≤
          s.getD lo' 0 + (i' - (lo' : ℚ)) * (s.getD hi' 0 - s.getD lo' 0) := by
        have hstep : 0 ≤ (i' - (lo' : ℚ)) * (s.getD hi' 0 - s.getD lo' 0) :=
          mul_nonneg (by linarith) (by linarith)
        linarith
      have hmid : s.getD hi 0 ≤ s.getD lo' 0 := by
        apply getD_mono_of_sorted hs _ (lt_of_le_of_lt hlo'_top hm1lt)
        calc hi ≤ lo + 1 := min_le_left _ _
          _ ≤ lo' := hltlo
      linarith

theorem quantile_mono (xs : List ℚ) {q q' : ℚ}
    (h0 : 0 ≤ q) (hqq : q ≤ q') (h1 : q' ≤ 1) :
    quantile xs q ≤ quantile xs q' :=
  quantileSorted_mono (List.sorted_insertionSort _ xs) h0 hqq h1

theorem max_nonneg_of_sum_nonneg {a b : ℚ} (h : 0 ≤ a + b) : 0 ≤ max a b := by
  rcases le_total a b with hab | hab
  · have : 0 ≤ b := by linarith [max_eq_right hab]
    simpa [max_eq_right hab]
  · have : 0 ≤ a := by linarith
    simpa [max_eq_left hab]

theorem max_eq_max_abs_of_sum_nonneg {a b : ℚ} (h : 0 ≤ a + b) :
    max a b = max |a| |b| := by
  rcases le_or_lt 0 a with ha | ha
  · rcases le_or_lt 0 b with hb | hb
    · rw [abs_of_nonneg ha, abs_of_nonneg hb]
    · have hba : b ≤ a := by linarith
      rw [max_eq_left hba, abs_of_nonneg ha, abs_of_neg hb, max_eq_left (by linarith)]
  · have hb : 0 ≤ b := by linarith
    have hab : a ≤ b := by linarith
    rw [max_eq_right hab, abs_of_neg ha, abs_of_nonneg hb, max_eq_right (by linarith)]

theorem quantile_spread_nonneg (xs : List ℚ) :
    0 ≤ max (quantile xs (95 / 100) - listMean xs) (listMean xs - quantile xs (5 / 100)) :=
  max_nonneg_of_sum_nonneg (by
    have := quantile_mono xs (by norm_num : (0:ℚ) ≤ 5 / 100)
      (by norm_num : (5:ℚ) / 100 ≤ 95 / 100) (by norm_num)
    linarith)

/-- C2: in the simulation path's aggregation, a nan (undefined) replicate makes
the call return `(None, None)` with the `JamValueMissing` warning; failing
that, a replicate equal to either supplied jam value makes it return
`(None, None)` with the jam-value-result warning; otherwise the call returns
the arithmetic mean of the replicate outcomes together with
`max(|q95 − mean|, |mean − q05|)` as the margin of error. -/
theorem medianSimAggregate_spec (simulation_results : List (Option ℚ))
    (jam_values : Option (ℚ × ℚ)) (_hne : simulation_results ≠ []) :
    (none ∈ simulation_results →
        medianSimAggregate simulation_results jam_values = .jamMissingNone)
    ∧ (none ∉ simulation_results →
        ∀ jv, jam_values = some jv →
          (some jv.1 ∈ simulation_results ∨ some jv.2 ∈ simulation_results) →
          medianSimAggregate simulation_results jam_values = .jamResultNone)
    ∧ (none ∉ simulation_results →
        (∀ jv, jam_values = some jv →
          some jv.1 ∉ simulation_results ∧ some jv.2 ∉ simulation_results) →
        medianSimAggregate simulation_results jam_values =
          .ok (listMean simulation_results.reduceOption)
            (max |quantile simulation_results.reduceOption (95 / 100) -
                    listMean simulation_results.reduceOption|
                 |listMean simulation_results.reduceOption -
                    quantile simulation_results.reduceOption (5 / 100)|)) := by
  refine ⟨?_, ?_, ?_⟩
  · intro h
    simp [medianSimAggregate, h]
  · intro h jv hjv hmem
    subst hjv
    rcases hmem with hm | hm
    · simp [medianSimAggregate, h, hm]
    · by_cases h1 : some jv.1 ∈ simulation_results
      · simp [medianSimAggregate, h, h1]
      · simp [medianSimAggregate, h, h1, hm]
  · intro h hjam
    have habs : max (quantile simulation_results.reduceOption (95 / 100) -
          listMean simulation_results.reduceOption)
        (listMean simulation_results.reduceOption -
          quantile simulation_results.reduceOption (5 / 100)) =
        max |quantile simulation_results.reduceOption (95 / 100) -
              listMean simulation_results.reduceOption|
            |listMean simulation_results.reduceOption -
              quantile simulation_results.reduceOption (5 / 100)| := by
      apply max_eq_max_abs_of_sum_nonneg
      have := quantile_mono simulation_results.reduceOption
        (by norm_num : (0:ℚ) ≤ 5 / 100) (by norm_num : (5:ℚ) / 100 ≤ 95 / 100) (by norm_num)
      linarith
    match hj : jam_values with
    | none =>
      simp only [medianSimAggregate, if_neg h]
      rw [medianSimOk, ← habs]
    | some jv =>
      obtain ⟨h1, h2⟩ := hjam jv rfl
      simp only [medianSimAggregate, if_neg h, if_neg h1, if_neg h2]
      rw [medianSimOk, ← habs]

/-- Witness for C2 at concrete replicates `[some 1, some 3]` with no jam
values: the aggregation returns the mean together with the absolute-spread
margin of error. -/
theorem medianSimAggregate_spec_witness :
    medianSimAggregate [some 1, some 3] none =
      .ok (listMean ([some (1:ℚ), some 3].reduceOption))
        (max |quantile [some (1:ℚ), some 3].reduceOption (95 / 100) -
                listMean [some (1:ℚ), some 3].reduceOption|
             |listMean [some (1:ℚ), some 3].reduceOption -
                quantile [some (1:ℚ), some 3].reduceOption (5 / 100)|) :=
  (medianSimAggregate_spec [some 1, some 3] none (by simp)).2.2 (by simp)
    (fun jv h => by simp at h)

/-- C10: whenever a simulation-based aggregation returns a margin of error
(`approximate_mean`, or the simulation path of `approximate_median` when it
returns a numeric result), that margin of error is non-negative: it is the
maximum of the 95th-percentile-minus-mean and mean-minus-5th-percentile
spreads, at least one of which is always ≥ 0. -/
theorem simulation_moe_nonneg :
    (∀ xs : List ℚ, 0 ≤ (meanAggregate xs).2)
    ∧ (∀ (rs : List (Option ℚ)) (jam : Option (ℚ × ℚ)) (est moe : ℚ),
        medianSimAggregate rs jam = .ok est moe → 0 ≤ moe) := by
  constructor
  · intro xs
    show 0 ≤ max (listMean xs - quantile xs (5 / 100)) (quantile xs (95 / 100) - listMean xs)
    rw [max_comm]
    exact quantile_spread_nonneg xs
  · intro rs jam est moe hok
    have hok' : medianSimOk rs = .ok est moe := by
      by_cases h : none ∈ rs
      · simp [medianSimAggregate, h] at hok
      · match hj : jam with
        | none =>
          rw [medianSimAggregate, if_neg h] at hok
          exact hok
        | some jv =>
          rw [medianSimAggregate, if_neg h] at hok
          by_cases h1 : some jv.1 ∈ rs
          · rw [if_pos h1] at hok; exact absurd hok (by simp)
          · rw [if_neg h1] at hok
            by_cases h2 : some jv.2 ∈ rs
            · rw [if_pos h2] at hok; exact absurd hok (by simp)
            · rw [if_neg h2] at hok; exact hok
    have := quantile_spread_nonneg rs.reduceOption
    rw [medianSimOk] at hok'
    injection hok' with h1 h2
    rw [← h2]
    exact this

/-- Witness for C10: both parts applied at concrete inputs. For the median part
the aggregation at `[some 1, some 3]` with no jam values yields a margin of
9/10, which is non-negative. -/
theorem simulation_moe_nonneg_witness :
    0 ≤ (meanAggregate [1, 2]).2 ∧ (0 : ℚ) ≤ 9 / 10 :=
  ⟨simulation_moe_nonneg.1 [1, 2],
    simulation_moe_nonneg.2 [some 1, some 3] none 2 (9 / 10) (by
      have hstep : medianSimAggregate [some 1, some 3] none =
          medianSimOk [some 1, some 3] := by
        rw [medianSimAggregate, if_neg (by simp)]
      rw [hstep, medianSimOk]
      norm_num [listMean, quantile, quantileSorted, sortQ,
        List.insertionSort, List.orderedInsert])⟩

theorem runningRanges_cons (d : ℤ) (ds : List ℤ) :
    runningRanges (d :: ds) =
      ((0 : ℚ), ((d : ℤ) : ℚ)) ::
        (runningRanges ds).map
          (fun p => (p.1 + ((d : ℤ) : ℚ), p.2 + ((d : ℤ) : ℚ))) := by
  rw [runningRanges, runningRanges]
  rw [List.length_cons, List.range_succ_eq_map, List.map_cons, List.map_map, List.map_map]
  refine congrArg₂ List.cons ?_ ?_
  · simp
  · apply List.map_congr_left
    intro i _
    simp only [Function.comp_apply, List.take_succ_cons, List.sum_cons]
    push_cast
    rw [Prod.mk.injEq]
    constructor <;> ring

theorem simCum_eq_zip (c : ℤ) (l : List (RBin × ℤ)) :
    simCum c l = (l.zip (runningRanges (l.map Prod.snd))).map
      (fun t => (t.1.1, t.1.2, t.2.1 + ((c : ℤ) : ℚ), t.2.2 + ((c : ℤ) : ℚ))) := by
  induction l generalizing c with
  | nil => simp [simCum, runningRanges]
  | cons hd tl ih =>
    obtain ⟨b, d⟩ := hd
    rw [simCum, List.map_cons, runningRanges_cons, List.zip_cons_cons, List.map_cons]
    refine congrArg₂ List.cons ?_ ?_
    · simp only
      push_cast
      refine congrArg₂ Prod.mk rfl (congrArg₂ Prod.mk rfl (congrArg₂ Prod.mk ?_ ?_)) <;> ring
    · rw [ih (c + d)]
      rw [List.zip_map_right, List.map_map]
      apply List.map_congr_left
      intro t _
      simp only [Function.comp_apply, Prod.map]
      push_cast
      refine congrArg₂ Prod.mk rfl (congrArg₂ Prod.mk rfl (congrArg₂ Prod.mk ?_ ?_)) <;> ring

/-- Counterexample for C1 as frozen: on `exC1` the source's replicate locates
the ORIGINAL midpoint 4 in the second perturbed range and interpolates to 20,
while the claimed perturbed midpoint 2 would locate the first bin and give 10. -/
theorem simMedianReplicate_midpoint_counterexample :
    simMedianReplicate exC1 none = .val 20
    ∧ simMedianReplicateClaimed exC1 none = .val 10
    ∧ simMedianReplicate exC1 none ≠ simMedianReplicateClaimed exC1 none := by
  refine ⟨?_, ?_, ?_⟩
  · norm_num [simMedianReplicate, simCum, simRepInterp, exC1, List.find?]
  · norm_num [simMedianReplicateClaimed, simCum, simRepInterp, exC1, List.find?]
  · norm_num [simMedianReplicate, simMedianReplicateClaimed, simCum, simRepInterp,
      exC1, List.find?]

/-- C1 (amended): in every simulation replicate, the cumulative count ranges
are recomputed from that replicate's perturbed counts, the bin located is the
first whose perturbed cumulative range contains the midpoint — half the sum of
the ORIGINAL reported counts — and the median is interpolated within that bin
by the §4.3 step-2 formula applied to the perturbed counts, with the jam-value
policy applied per replicate. -/
theorem simMedianReplicate_correct (l : List (RBin × ℤ)) (jam_values : Option (ℚ × ℚ)) :
    simMedianReplicate l jam_values = simMedianReplicateAmended l jam_values := by
  rw [simMedianReplicate, simMedianReplicateAmended, simCum_eq_zip 0 l]
  simp only [Int.cast_zero, add_zero, List.find?_map, Function.comp_def]
  rcases hfind : (l.zip (runningRanges (l.map Prod.snd))).find? _ with _ | t
  · rfl
  · rfl

/-- Witness for C3, applying the no-zero-collapse arm at the census doc example
`(10154024, 3778) + (9712936, 3911)`: all margins enter the radicand. -/
theorem approximate_sum_spec_witness :
    (approximate_sum [(10154024, 3778), (9712936, 3911)]).2 =
      ([((10154024 : ℚ), (3778 : ℚ)), (9712936, 3911)].map (fun p => p.2 ^ 2)).sum :=
  (approximate_sum_spec [(10154024, 3778), (9712936, 3911)]).2.2.1 (by norm_num)

/-- C6 (code bug): the claim — and the spec sentence it quotes — says every
bin's perturbed count is clamped at 0 in both variants, but the source omits
the clamp for the last bin of the uniform variant: on draws `[3, -5]` the
uniform path keeps the negative count −5 (which then crashes numpy's
`uniform(size=(1, nn))`), while the pareto path clamps it to 0; all non-last
bins are clamped in both variants. -/
theorem mean_last_bin_clamp_bug :
    meanPerturbedCounts [3, -5] false = [3, -5]
    ∧ ¬ (∀ c ∈ meanPerturbedCounts [3, -5] false, 0 ≤ c)
    ∧ meanPerturbedCounts [3, -5] true = [3, 0]
    ∧ (∀ draws : List ℤ, ∀ c ∈ meanPerturbedCounts draws true, 0 ≤ c)
    ∧ (∀ draws : List ℤ, ∀ _pareto : Bool,
        ∀ c ∈ (draws.dropLast.map (fun nn => max 0 nn)), 0 ≤ c) := by
  refine ⟨by norm_num [meanPerturbedCounts], ?_, by norm_num [meanPerturbedCounts], ?_, ?_⟩
  · intro h
    have := h (-5) (by norm_num [meanPerturbedCounts])
    norm_num at this
  · intro draws c hc
    rw [meanPerturbedCounts] at hc
    rcases List.mem_append.mp hc with h | h
    · obtain ⟨nn, _, hnn⟩ := List.mem_map.mp h
      rw [← hnn]
      exact le_max_left 0 nn
    · rcases hlast : draws.getLast? with _ | nn
      · rw [hlast] at h
        simp at h
      · rw [hlast] at h
        simp only [if_pos, List.mem_singleton] at h
        rw [h]
        exact le_max_left 0 nn
  · intro draws _ c hc
    obtain ⟨nn, _, hnn⟩ := List.mem_map.mp hc
    rw [← hnn]
    exact le_max_left 0 nn

/-- Witness for C6's universally quantified parts: the pareto variant clamps
the single-bin draw −5 to 0, which is non-negative. -/
theorem mean_last_bin_clamp_bug_witness : (0 : ℤ) ≤ 0 :=
  mean_last_bin_clamp_bug.2.2.2.1 [-5] 0 (by norm_num [meanPerturbedCounts])

/-- C9: the choice between simulation and analytical path depends solely on
whether the first bin after sorting carries `moe`: two inputs whose sorted
first bins agree on `moe`-presence choose the same path; with `moe` only on a
non-first bin the analytical path is taken, and with `moe` only on the first
sorted bin the simulation path is taken regardless of the remaining bins. -/
theorem medianUsesSimulation_spec :
    (∀ l l' : List RBin, l ≠ [] → l' ≠ [] →
      (sortRanges l).head?.map (fun b => b.moe.isSome) =
        (sortRanges l').head?.map (fun b => b.moe.isSome) →
      medianUsesSimulation l = medianUsesSimulation l')
    ∧ medianUsesSimulation exC9analytical = false
    ∧ medianUsesSimulation exC9simulation = true := by
  refine ⟨?_, ?_, ?_⟩
  · intro l l' _ _ hhead
    rw [medianUsesSimulation, medianUsesSimulation]
    rcases h1 : sortRanges l with _ | ⟨b, tl⟩ <;>
      rcases h2 : sortRanges l' with _ | ⟨b', tl'⟩ <;>
        rw [h1, h2] at hhead <;> simp_all
  · norm_num [medianUsesSimulation, sortRanges, exC9analytical,
      List.insertionSort, List.orderedInsert, rbinLE]
  · norm_num [medianUsesSimulation, sortRanges, exC9simulation,
      List.insertionSort, List.orderedInsert, rbinLE]

/-- Witness for C9's universally quantified part: the two concrete inputs
whose sorted first bins both lack `moe` choose the same (analytical) path. -/
theorem medianUsesSimulation_spec_witness :
    medianUsesSimulation exC9analytical =
      medianUsesSimulation [⟨some 0, some 10, 5, none, none, none, none⟩] :=
  medianUsesSimulation_spec.1 exC9analytical
    [⟨some 0, some 10, 5, none, none, none, none⟩]
    (by simp [exC9analytical]) (by simp)
    (by simp [sortRanges, exC9analytical, List.insertionSort, List.orderedInsert, rbinLE])

theorem assignCum_map_fst (c : ℚ) (l : List RBin) :
    (assignCum c l).map Prod.fst = l := by
  induction l generalizing c with
  | nil => rfl
  | cons b rest ih => rw [assignCum, List.map_cons, ih]

/-- Counterexample for C7 as frozen: after an analytical `approximate_median`
call on `exC7` the caller's list is NOT unchanged — it has been reordered and
each dict has gained `n_min`/`n_max` entries. -/
theorem approximate_median_post_counterexample :
    approximate_median_post exC7 ≠ exC7 := by
  norm_num [approximate_median_post, withCumFields, assignCum, sortRanges, exC7,
    List.insertionSort, List.orderedInsert, rbinLE]

/-- C7 (amended): the calls do mutate the caller's `range_list` — it is sorted
in place by `min` and, on the median's analytical path, each bin gains
`n_min`/`n_max` cumulative fields — but the caller-supplied field values
(`min`, `max`, `n`, `moe`) are preserved up to that reordering, the post-call
list is sorted by `min`, and the attached fields are exactly the running-sum
cumulative ranges; `approximate_mean` sorts in place and attaches nothing. -/
theorem approximate_median_mutation_spec :
    (∀ l : List RBin, ((approximate_median_post l).map coreOf).Perm (l.map coreOf))
    ∧ (∀ l : List RBin, List.Sorted rbinLE (approximate_median_post l))
    ∧ (∀ l : List RBin,
        (approximate_median_post l).map (fun b => b.n_min) =
          (assignCum 0 (sortRanges l)).map (fun t => some t.2.1)
        ∧ (approximate_median_post l).map (fun b => b.n_max) =
          (assignCum 0 (sortRanges l)).map (fun t => some t.2.2))
    ∧ (∀ l : List RBin, (approximate_mean_post l).Perm l
        ∧ List.Sorted rbinLE (approximate_mean_post l)) := by
  have hcore : ∀ m : List RBin, (withCumFields m).map coreOf = m.map coreOf := by
    intro m
    rw [withCumFields, List.map_map]
    have : ∀ t : RBin × ℚ × ℚ,
        (coreOf ∘ fun t => { t.1 with n_min := some t.2.1, n_max := some t.2.2 }) t =
          (coreOf ∘ Prod.fst) t := fun t => rfl
    rw [List.map_congr_left (fun t _ => this t), ← List.map_map, assignCum_map_fst]
  refine ⟨?_, ?_, ?_, ?_⟩
  · intro l
    rw [approximate_median_post, hcore]
    exact (List.perm_insertionSort rbinLE l).map coreOf
  · intro l
    rw [approximate_median_post, withCumFields]
    have hs : List.Sorted rbinLE (sortRanges l) := List.sorted_insertionSort rbinLE l
    have h1 : List.Pairwise (fun a b : RBin × ℚ × ℚ => rbinLE a.1 b.1)
        (assignCum 0 (sortRanges l)) := by
      have := (assignCum_map_fst 0 (sortRanges l)).symm ▸ hs
      exact List.pairwise_map.mp this
    exact List.pairwise_map.mpr (h1.imp (fun h => h))
  · intro l
    constructor
    · rw [approximate_median_post, withCumFields, List.map_map]
      rfl
    · rw [approximate_median_post, withCumFields, List.map_map]
      rfl
  · intro l
    exact ⟨List.perm_insertionSort rbinLE l, List.sorted_insertionSort rbinLE l⟩

/-- Witness for C7's amended theorem, at the concrete caller input `exC7`:
the caller-supplied fields survive as a permutation. -/
theorem approximate_median_mutation_spec_witness :
    ((approximate_median_post exC7).map coreOf).Perm (exC7.map coreOf) :=
  approximate_median_mutation_spec.1 exC7

theorem leSqrt_iff {aq bq c r : ℚ} (hr : 0 ≤ r) :
    leSqrt aq bq c r = true ↔
      (aq : ℝ) + (bq : ℝ) * Real.sqrt ((r : ℚ) : ℝ) ≤ (c : ℝ) := by
  have hs0 : 0 ≤ Real.sqrt ((r : ℚ) : ℝ) := Real.sqrt_nonneg _
  have hs2 : Real.sqrt ((r : ℚ) : ℝ) ^ 2 = ((r : ℚ) : ℝ) :=
    Real.sq_sqrt (by exact_mod_cast hr)
  rw [leSqrt]
  by_cases hb : 0 ≤ bq
  · rw [if_pos hb, decide_eq_true_iff]
    have hbs : 0 ≤ (bq : ℝ) * Real.sqrt ((r : ℚ) : ℝ) :=
      mul_nonneg (by exact_mod_cast hb) hs0
    constructor
    · rintro ⟨hd, hsq⟩
      have hd' : (0 : ℝ) ≤ (c : ℝ) - (aq : ℝ) := by exact_mod_cast hd
      have hsq' : ((bq : ℝ) * Real.sqrt ((r : ℚ) : ℝ)) ^ 2 ≤ ((c : ℝ) - (aq : ℝ)) ^ 2 := by
        rw [mul_pow, hs2]
        have : ((bq ^ 2 * r : ℚ) : ℝ) ≤ (((c - aq) ^ 2 : ℚ) : ℝ) := by exact_mod_cast hsq
        push_cast at this
        linarith
      have := (pow_le_pow_iff_left hbs hd' (by norm_num : (2:ℕ) ≠ 0)).mp hsq'
      linarith
    · intro h
      have h1 : (bq : ℝ) * Real.sqrt ((r : ℚ) : ℝ) ≤ (c : ℝ) - (aq : ℝ) := by linarith
      have hd' : (0 : ℝ) ≤ (c : ℝ) - (aq : ℝ) := le_trans hbs h1
      refine ⟨by exact_mod_cast hd', ?_⟩
      have hp : ((bq : ℝ) * Real.sqrt ((r : ℚ) : ℝ)) ^ 2 ≤ ((c : ℝ) - (aq : ℝ)) ^ 2 :=
        pow_le_pow_left hbs h1 2
      rw [mul_pow, hs2] at hp
      have : ((bq ^ 2 * r : ℚ) : ℝ) ≤ (((c - aq) ^ 2 : ℚ) : ℝ) := by push_cast; linarith
      exact_mod_cast this
  · rw [if_neg hb, decide_eq_true_iff]
    push_neg at hb
    have hbs : (bq : ℝ) * Real.sqrt ((r : ℚ) : ℝ) ≤ 0 :=
      mul_nonpos_iff.mpr (Or.inr ⟨by exact_mod_cast hb.le, hs0⟩)
    constructor
    · rintro (hd | hsq)
      · have : (0 : ℝ) ≤ (c : ℝ) - (aq : ℝ) := by exact_mod_cast hd
        linarith
      · rcases le_or_lt 0 ((c : ℝ) - (aq : ℝ)) with hd | hd
        · linarith
        · have hq1 : (0 : ℝ) ≤ -((c : ℝ) - (aq : ℝ)) := by linarith
          have hq2 : (0 : ℝ) ≤ -((bq : ℝ) * Real.sqrt ((r : ℚ) : ℝ)) := by linarith
          have key1 : (-((c : ℝ) - (aq : ℝ))) ^ 2 = ((c : ℝ) - (aq : ℝ)) ^ 2 := neg_sq _
          have key2 : (-((bq : ℝ) * Real.sqrt ((r : ℚ) : ℝ))) ^ 2 =
              (bq : ℝ) ^ 2 * ((r : ℚ) : ℝ) := by rw [neg_sq, mul_pow, hs2]
          have hsq' : (-((c : ℝ) - (aq : ℝ))) ^ 2 ≤
              (-((bq : ℝ) * Real.sqrt ((r : ℚ) : ℝ))) ^ 2 := by
            have hc : (((c - aq) ^ 2 : ℚ) : ℝ) ≤ ((bq ^ 2 * r : ℚ) : ℝ) := by exact_mod_cast hsq
            push_cast at hc
            rw [key1, key2]
            linarith
          have := (pow_le_pow_iff_left hq1 hq2 (by norm_num : (2:ℕ) ≠ 0)).mp hsq'
          linarith
    · intro h
      rcases le_or_lt 0 (c - aq) with hd | hd
      · exact Or.inl hd
      · right
        have hd' : (c : ℝ) - (aq : ℝ) < 0 := by exact_mod_cast hd
        have hq1 : (0 : ℝ) ≤ -((c : ℝ) - (aq : ℝ)) := by linarith
        have hq2 : (0 : ℝ) ≤ -((bq : ℝ) * Real.sqrt ((r : ℚ) : ℝ)) := by linarith
        have hle : -((c : ℝ) - (aq : ℝ)) ≤ -((bq : ℝ) * Real.sqrt ((r : ℚ) : ℝ)) := by
          linarith
        have key1 : (-((c : ℝ) - (aq : ℝ))) ^ 2 = ((c : ℝ) - (aq : ℝ)) ^ 2 := neg_sq _
        have key2 : (-((bq : ℝ) * Real.sqrt ((r : ℚ) : ℝ))) ^ 2 =
            (bq : ℝ) ^ 2 * ((r : ℚ) : ℝ) := by rw [neg_sq, mul_pow, hs2]
        have hps := pow_le_pow_left hq1 hle 2
        rw [key1, key2] at hps
        have h2 : (((c - aq) ^ 2 : ℚ) : ℝ) ≤ ((bq ^ 2 * r : ℚ) : ℝ) := by
          push_cast
          linarith
        exact_mod_cast h2

theorem geSqrt_iff {aq bq c r : ℚ} (hr : 0 ≤ r) :
    geSqrt aq bq c r = true ↔
      (c : ℝ) ≤ (aq : ℝ) + (bq : ℝ) * Real.sqrt ((r : ℚ) : ℝ) := by
  rw [geSqrt, leSqrt_iff hr]
  push_cast
  constructor <;> intro h <;> linarith

theorem inRangeSqrt_iff {aq bq r n_min n_max : ℚ} (hr : 0 ≤ r) :
    inRangeSqrt aq bq r n_min n_max = true ↔ PointInRange aq bq r n_min n_max := by
  rw [inRangeSqrt, Bool.and_eq_true, geSqrt_iff hr, leSqrt_iff hr, PointInRange]

theorem locateWithNext_eq_none_iff (aq bq r : ℚ) (l : List (RBin × ℚ × ℚ)) :
    locateWithNext aq bq r l = none ↔
      ∀ x ∈ l, inRangeSqrt aq bq r x.2.1 x.2.2 = false := by
  induction l with
  | nil => simp [locateWithNext]
  | cons x rest ih =>
    rw [locateWithNext]
    by_cases h : inRangeSqrt aq bq r x.2.1 x.2.2 = true
    · simp [h]
    · rw [if_neg (by simp [h])]
      rw [ih]
      simp only [Bool.not_eq_true] at h
      simp [h]

theorem locateWithNext_none_iff_noRange {aq bq r : ℚ} (hr : 0 ≤ r)
    (l : List (RBin × ℚ × ℚ)) :
    locateWithNext aq bq r l = none ↔ noRangeContains l aq bq r := by
  rw [locateWithNext_eq_none_iff, noRangeContains]
  constructor
  · rintro h ⟨t, ht, hp⟩
    have hfalse := h t ht
    rw [← inRangeSqrt_iff hr] at hp
    rw [hp] at hfalse
    exact absurd hfalse (by simp)
  · intro h x hx
    by_contra hne
    rw [Bool.not_eq_false, inRangeSqrt_iff hr] at hne
    exact h ⟨x, hx, hne⟩

/-- C5: in the analytical margin stage, the count-scale points
`p_lower·n = n/2 − (n·D/100)·√r` and `p_upper·n = n/2 + (n·D/100)·√r` are each
located among the cumulative ranges, and the stage raises DataError exactly
when either point falls within no range (it never defaults); and the full
analytical call on the 4-bin, n = 20 partition with design_factor 1.5 and
sampling_percentage 1 raises DataError. -/
theorem analytical_p_points_spec :
    (∀ (ranges : List (RBin × ℚ × ℚ)) (D pct n : ℚ),
      n * pct ≠ 0 → 0 ≤ ((100 - pct) / (n * pct)) * 2500 →
      (moeStage ranges D pct n = .dataError ↔
        (noRangeContains ranges (n / 2) (-(n * D / 100))
            (((100 - pct) / (n * pct)) * 2500)
          ∨ noRangeContains ranges (n / 2) (n * D / 100)
            (((100 - pct) / (n * pct)) * 2500))))
    ∧ analyticalMedian exC5 (3 / 2) (some 1) none = .dataError := by
  constructor
  · intro ranges D pct n hnp hr
    rw [moeStage, if_neg hnp, if_neg (not_lt.mpr hr)]
    rcases hL : locateWithNext (n / 2) (-(n * D / 100))
        (((100 - pct) / (n * pct)) * 2500) ranges with _ | locL
    · simp only [hL]
      constructor
      · intro _
        exact Or.inl ((locateWithNext_none_iff_noRange hr ranges).mp hL)
      · intro _
        trivial
    · rcases hU : locateWithNext (n / 2) (n * D / 100)
          (((100 - pct) / (n * pct)) * 2500) ranges with _ | locU
      · simp only [hL, hU]
        constructor
        · intro _
          exact Or.inr ((locateWithNext_none_iff_noRange hr ranges).mp hU)
        · intro _
          trivial
      · simp only [hL, hU]
        have hL' : ¬ noRangeContains ranges (n / 2) (-(n * D / 100))
            (((100 - pct) / (n * pct)) * 2500) := by
          intro hnone
          rw [← locateWithNext_none_iff_noRange hr] at hnone
          rw [hL] at hnone
          cases hnone
        have hU' : ¬ noRangeContains ranges (n / 2) (n * D / 100)
            (((100 - pct) / (n * pct)) * 2500) := by
          intro hnone
          rw [← locateWithNext_none_iff_noRange hr] at hnone
          rw [hU] at hnone
          cases hnone
        constructor
        · intro hds
          exfalso
          rcases hI1 : interpBound (1 / 2) (-(D / 100)) n locL with _ | lbo
          · rw [hI1] at hds
            cases hds
          · rcases hI2 : interpBound (1 / 2) (D / 100) n locU with _ | ubo
            · rw [hI1, hI2] at hds
              cases hds
            · rw [hI1, hI2] at hds
              rcases lbo with _ | lb <;> rcases ubo with _ | ub <;> cases hds
        · rintro (h | h)
          · exact absurd h hL'
          · exact absurd h hU'
  · norm_num [analyticalMedian, finishMedian, moeStage, locateWithNext, inRangeSqrt,
      geSqrt, leSqrt, interpBound, assignCum, sortRanges, List.insertionSort,
      List.orderedInsert, rbinLE, exC5, List.find?]

/-- Witness for C5, applying the located-points characterisation at the
concrete 4-bin example: evaluating the stage there yields DataError, hence one
of the two probability points lies in no cumulative range. -/
theorem analytical_p_points_spec_witness :
    noRangeContains (assignCum 0 (sortRanges exC5)) (20 / 2) (-(20 * (3 / 2) / 100))
        (((100 - 1) / (20 * 1)) * 2500)
      ∨ noRangeContains (assignCum 0 (sortRanges exC5)) (20 / 2) (20 * (3 / 2) / 100)
        (((100 - 1) / (20 * 1)) * 2500) :=
  (analytical_p_points_spec.1 (assignCum 0 (sortRanges exC5)) (3 / 2) 1 20
      (by norm_num) (by norm_num)).mp
    (by norm_num [moeStage, locateWithNext, inRangeSqrt, geSqrt, leSqrt,
      assignCum, sortRanges, List.insertionSort, List.orderedInsert, rbinLE, exC5])

